import Mathlib

/-!
Verification of the Pourbaix stability-diagram engine of `twod_materials`
(`twod_materials/pourbaix/analysis.py`), as a shallow embedding.

Compositions are association lists from element symbols to rational
stoichiometric amounts; reference tables (ion formation energies, ion DFT
corrections, end-member energies) are association lists mirroring the YAML
dictionaries; Python `dict` indexing that can raise `KeyError` is embedded
as `Except String`; entry construction follows `Pourbaix2D.make_plot`
line by line.
-/

/-- A chemical composition: element symbol to stoichiometric amount,
mirroring `pymatgen.core.Composition` as used by the source. -/
abbrev Cmps := List (String × ℚ)

/-- Amount of element `k` in composition `c` (`composition[elt]`,
0 for absent elements). -/
def Cmps.amount : Cmps → String → ℚ
  | [], _ => 0
  | p :: t, k => if p.1 == k then p.2 else Cmps.amount t k

/-- `composition.num_atoms`: total number of atoms per formula unit. -/
def Cmps.numAtoms (c : Cmps) : ℚ := (c.map (fun p => p.2)).sum

/-- Python `dict` lookup `d[k]` made total: `none` models a `KeyError`. -/
def lookupD {α : Type} : List (String × α) → String → Option α
  | [], _ => none
  | p :: t, k => if p.1 == k then some p.2 else lookupD t k

/-- Python `dict.update`: values of existing keys are replaced in place,
new keys are appended in iteration order. -/
def updateD {α : Type} (d e : List (String × α)) : List (String × α) :=
  (d.map (fun p =>
    match lookupD e p.1 with
    | some v => (p.1, v)
    | none => p)) ++ e.filter (fun q => (lookupD d q.1).isNone)

/-- Equality of reduced formulas, modelled as proportionality of the two
compositions (pymatgen's `reduced_formula` identifies compositions equal
up to an overall scale factor). -/
def sameReducedFormula (c d : Cmps) : Bool :=
  ((c.map (fun p => p.1)) ++ (d.map (fun p => p.1))).all
    (fun k => Cmps.amount c k * Cmps.numAtoms d == Cmps.amount d k * Cmps.numAtoms c)

/-- Modelled from the spec: rendering of pymatgen's
`Composition.reduced_formula` string (the external library's renderer is
not part of this repository; the claims only use the rendered name as an
opaque tag for file naming). -/
def reducedFormulaStr (c : Cmps) : String :=
  (c.map (fun p => p.1 ++ (if p.2 == 1 then "" else toString p.2))).foldl
    (fun a b => a ++ b) ""

/-- Input of `Pourbaix2D.make_plot`: the compound's (parsed) composition
and total energy plus the reference tables `ION_DATA['ExpFormEnergy']`,
`ION_DATA['IonCorrection']` and `END_MEMBERS`, and the external parser
`Ion.from_formula` (formula string to composition and net charge),
carried as given data. -/
structure MPInput where
  comp : Cmps
  energy : ℚ
  expFormEnergy : List (String × List (String × ℚ))
  ionCorrection : List (String × ℚ)
  endMembers : List (String × ℚ)
  ionFromFormula : String → Cmps × ℚ

/-- `chemsys = ['O', 'H'] + [elt for elt in composition if elt not in ['O','H']]`. -/
def chemsys (inp : MPInput) : List String :=
  ["O", "H"] ++ (inp.comp.map (fun p => p.1)).filter
    (fun s => !(s == "O" || s == "H"))

/-- `elements = [elt for elt in chemsys if elt not in ['O', 'H']]`. -/
def elems (inp : MPInput) : List String :=
  (chemsys inp).filter (fun s => !(s == "O" || s == "H"))

/-- The merged ion dictionary: for every non-O/H element of the chemical
system, `exp_dict[elt]` is looked up (a missing key raises `KeyError`) and,
when non-empty (Python truthiness), merged into `ion_dict` by `dict.update`. -/
def ionDictE (inp : MPInput) : Except String (List (String × ℚ)) :=
  (chemsys inp).foldlM
    (fun d elt =>
      if elt == "O" || elt == "H" then Except.ok d
      else
        match lookupD inp.expFormEnergy elt with
        | none => Except.error ("KeyError: " ++ elt)
        | some l => Except.ok (if l.isEmpty then d else updateD d l))
    []

/-- `cmpd.correction -= num_atoms * metastability / 1000`: the compound's
corrected total energy as a function of the metastability value. -/
def cmpdEnergy (inp : MPInput) (m : ℚ) : ℚ :=
  inp.energy + (0 - Cmps.numAtoms inp.comp * m / 1000)

/-- The loop `for elt in composition: form_energy -= END_MEMBERS[elt] *
composition[elt]`, accumulating the subtracted sum; a missing end-member
raises `KeyError`. -/
def endSumE (inp : MPInput) : Except String ℚ :=
  inp.comp.foldlM
    (fun s p =>
      match lookupD inp.endMembers p.1 with
      | none => Except.error ("KeyError: " ++ p.1)
      | some v => Except.ok (s + v * Cmps.amount inp.comp p.1))
    0

/-- `form_energy = cmpd.energy − Σ END_MEMBERS[elt] * composition[elt]`. -/
def formEnergyE (inp : MPInput) (m : ℚ) : Except String ℚ :=
  (endSumE inp).map (fun s => cmpdEnergy inp m - s)

/-- A Pourbaix entry as used by `make_plot`: name, entry id (all entries
built here keep the default `None`), composition, base energy, additive
correction, concentration, net charge; `srcElt` records the element loop
variable the ion entry was generated for (provenance, `none` for the
compound entry). -/
structure PBX where
  name : String
  entryId : Option String
  comp : Cmps
  energy : ℚ
  correction : ℚ
  conc : ℚ
  charge : ℚ
  srcElt : Option String
deriving DecidableEq, Repr

/-- Reference free energy `g0` of an entry: base energy plus the additive
correction. -/
def PBX.g0 (e : PBX) : ℚ := e.energy + e.correction

/-- Number of H atoms of the entry's composition. -/
def PBX.nH (e : PBX) : ℚ := Cmps.amount e.comp "H"

/-- Number of O atoms of the entry's composition. -/
def PBX.nO (e : PBX) : ℚ := Cmps.amount e.comp "O"

/-- `energy_per_atom` of an entry. -/
def PBX.energyPerAtom (e : PBX) : ℚ := e.g0 / Cmps.numAtoms e.comp

/-- `contains_entry(entry_list, entry)` from the source: an entry is a
duplicate of the list when some listed entry has the same `entry_id`, or
energies per atom within `1e-6` and the same reduced formula. -/
def contains_entry (entry_list : List PBX) (entry : PBX) : Bool :=
  entry_list.any (fun ent =>
    ent.entryId == entry.entryId
      || (decide (|entry.energyPerAtom - ent.energyPerAtom| < (1 : ℚ)/1000000)
          && sameReducedFormula entry.comp ent.comp))

/-- The compound's Pourbaix entry: `PourbaixEntry(cmpd)` followed by
`g0_replace(form_energy)`; solid entries keep the default concentration 1,
charge 0 and entry id `None`. -/
def cmpdPbx (inp : MPInput) (fe : ℚ) : PBX :=
  { name := reducedFormulaStr inp.comp
    entryId := none
    comp := inp.comp
    energy := fe
    correction := 0
    conc := 1
    charge := 0
    srcElt := none }

/-- One step of the ion loop body for element `elt` and ion formula `key`
with experimental energy `en`: when the ion's composition contains `elt`
(`comp.composition[elt] != 0`), build the Pourbaix ion entry with
`correction = ion_correction[elt] * factor` (a missing correction raises
`KeyError`), concentration `ion_concentration` and name `key`; otherwise
produce nothing. -/
def ionEntryE (inp : MPInput) (conc : ℚ) (elt key : String) (en : ℚ) :
    Except String (Option PBX) :=
  let pc := inp.ionFromFormula key
  if Cmps.amount pc.1 elt != 0 then
    match lookupD inp.ionCorrection elt with
    | none => Except.error ("KeyError: " ++ elt)
    | some corr =>
        Except.ok (some
          { name := key
            entryId := none
            comp := pc.1
            energy := en
            correction := corr * Cmps.amount pc.1 elt
            conc := conc
            charge := pc.2
            srcElt := some elt })
  else Except.ok none

deriving instance DecidableEq for Except

/-- Effectful map over a list in iteration order (first failure wins),
used to run the source's loops. -/
def emapM {α β : Type} (f : α → Except String β) : List α → Except String (List β)
  | [] => Except.ok []
  | a :: l => do
    let b ← f a
    let r ← emapM f l
    Except.ok (b :: r)

/-- The inner ion loop `for key in ion_dict` at a fixed element. -/
def ionRowE (inp : MPInput) (conc : ℚ) (d : List (String × ℚ))
    (elt : String) : Except String (List PBX) :=
  (emapM (fun p => ionEntryE inp conc elt p.1 p.2) d).map
    (fun l => l.filterMap id)

/-- The full double loop `for elt in elements: for key in ion_dict: ...`
building `pbx_ion_entries` in order. -/
def ionEntriesFromDict (inp : MPInput) (conc : ℚ)
    (d : List (String × ℚ)) : Except String (List PBX) :=
  (emapM (fun elt => ionRowE inp conc d elt) (elems inp)).map List.flatten

/-- `all_entries = [pbx_cmpd] + pbx_ion_entries`, with the failure points
of `make_plot` in source order: the ion-dictionary lookups, the end-member
lookups, then the ion-correction lookups. -/
def allEntriesE (inp : MPInput) (m conc : ℚ) : Except String (List PBX) := do
  let d ← ionDictE inp
  let fe ← formEnergyE inp m
  let ions ← ionEntriesFromDict inp conc d
  pure (cmpdPbx inp fe :: ions)

/-- Modelled from the spec: the fixed reference chemical potential of
water appearing in the free-energy expression (its numeric value plays no
role in any claim). -/
def muH2O : ℝ := -2.4583

/-- Modelled from the spec (and the source's own comment, lines 132-134):
free energy of a Pourbaix entry as a function of `(pH, φ)`:
`g = g0 + 0.0591 * log10(conc) - nO * mu_H2O + (nH - 2 nO) * pH +
φ * (-nH + 2 nO + q)`. -/
noncomputable def gOf (e : PBX) (x : ℝ × ℝ) : ℝ :=
  (e.g0 : ℝ) + 0.0591 * Real.logb 10 (e.conc : ℝ) - (e.nO : ℝ) * muH2O
    + ((e.nH : ℝ) - 2 * (e.nO : ℝ)) * x.1
    + x.2 * (-(e.nH : ℝ) + 2 * (e.nO : ℝ) + (e.charge : ℝ))

/-- The clipped diagram domain `pH ∈ [0, 14], φ ∈ [-2, 2]`. -/
def phDomain : Set (ℝ × ℝ) := Set.Icc 0 14 ×ˢ Set.Icc (-2) 2

/-- Lower envelope (hull minimum) of the free-energy planes of the entry
list `c :: es` at a point. -/
noncomputable def minG (c : PBX) (es : List PBX) (x : ℝ × ℝ) : ℝ :=
  (es.map (fun e => gOf e x)).foldl min (gOf c x)

/-- Vertical gap between the compound's plane and the hull minimum at a
point. -/
noncomputable def gapF (c : PBX) (es : List PBX) (x : ℝ × ℝ) : ℝ :=
  gOf c x - minG c es x

/-- Modelled from the spec: `PourbaixAnalyzer.get_e_above_hull` (external
library): the compound's energy above the hull is the infimum, over the
clipped domain, of the gap between the compound's plane and the lower
envelope of all entries. -/
noncomputable def eAboveHull (c : PBX) (es : List PBX) : ℝ :=
  sInf (gapF c es '' phDomain)

/-- The instability score returned by `make_plot`:
`panalyzer.get_e_above_hull(pbx_cmpd)` on the diagram built from
`all_entries`, behind the same failure points as the entry construction. -/
noncomputable def scoreE (inp : MPInput) (m conc : ℚ) : Except String ℝ := do
  let d ← ionDictE inp
  let fe ← formEnergyE inp m
  let ions ← ionEntriesFromDict inp conc d
  pure (eAboveHull (cmpdPbx inp fe) ions)

/-- Observable plotting side effects of `make_plot`. -/
inductive PlotAction where
  | suptitle (s : String)
  | savefig (fname : String)
  | closeFig
deriving DecidableEq, Repr

/-- The tail of `make_plot` that renders and saves the figure: with a
nonzero (truthy) metastability it adds a suptitle and saves
`'{formula}_{metastability}meV.pdf'`; otherwise it saves
`'{formula}.pdf'`; the figure is closed in both branches. -/
def plotSteps (rf : String) (m : ℚ) : List PlotAction :=
  if m != 0 then
    [PlotAction.suptitle ("Metastable Tolerance = " ++ toString m ++ " meV/atom"),
     PlotAction.savefig (rf ++ "_" ++ toString m ++ "meV.pdf"),
     PlotAction.closeFig]
  else
    [PlotAction.savefig (rf ++ ".pdf"), PlotAction.closeFig]

/-- The image files persisted by a list of plotting actions. -/
def savedFiles (acts : List PlotAction) : List String :=
  acts.filterMap (fun a =>
    match a with
    | PlotAction.savefig n => some n
    | _ => none)

/-- The image files written by one `make_plot` invocation: the save block
(source lines 169-181) is only reached when the preceding entry
construction raised no `KeyError`; an invocation that raises aborts
before `savefig` and writes nothing. -/
def makePlotFilesE (inp : MPInput) (m conc : ℚ) : Except String (List String) :=
  (allEntriesE inp m conc).map
    (fun _ => savedFiles (plotSteps (reducedFormulaStr inp.comp) m))

/-- The files on disk after an invocation: none when it raised. -/
def filesWritten (r : Except String (List String)) : List String :=
  match r with
  | Except.ok fs => fs
  | Except.error _ => []

theorem emapM_ok_mem {α β : Type} (f : α → Except String β) :
    ∀ (l : List α) (r : List β), emapM f l = Except.ok r →
      ∀ b ∈ r, ∃ a ∈ l, f a = Except.ok b := by
  intro l
  induction l with
  | nil =>
    intro r h b hb
    simp only [emapM] at h
    cases h
    simp at hb
  | cons a t ih =>
    intro r h b hb
    cases hfa : f a with
    | error e => simp [emapM, hfa, Bind.bind, Except.bind] at h
    | ok b0 =>
      cases hft : emapM f t with
      | error e => simp [emapM, hfa, hft, Bind.bind, Except.bind] at h
      | ok r0 =>
        simp only [emapM, hfa, hft, Bind.bind, Except.bind] at h
        cases h
        rcases List.mem_cons.mp hb with hb | hb
        · exact ⟨a, List.mem_cons_self a t, by rw [hfa, hb]⟩
        · rcases ih r0 hft b hb with ⟨a2, ha2, hfa2⟩
          exact ⟨a2, List.mem_cons_of_mem a ha2, hfa2⟩

/-- Characterization of a successfully produced ion entry: it records the
loop element and formula, the ion's composition and charge, the base
experimental energy, and the correction `ion_correction[elt] * factor`
with `factor = comp.composition[elt] ≠ 0`. -/
theorem ionEntryE_ok_some (inp : MPInput) (conc : ℚ) (elt key : String)
    (en : ℚ) (e : PBX) (h : ionEntryE inp conc elt key en = Except.ok (some e)) :
    ∃ corr, lookupD inp.ionCorrection elt = some corr ∧
      Cmps.amount (inp.ionFromFormula key).1 elt ≠ 0 ∧
      e = { name := key
            entryId := none
            comp := (inp.ionFromFormula key).1
            energy := en
            correction := corr * Cmps.amount (inp.ionFromFormula key).1 elt
            conc := conc
            charge := (inp.ionFromFormula key).2
            srcElt := some elt } := by
  unfold ionEntryE at h
  by_cases hz : Cmps.amount (inp.ionFromFormula key).1 elt != 0
  · rw [if_pos hz] at h
    cases hl : lookupD inp.ionCorrection elt with
    | none => rw [hl] at h; exact absurd h (by simp)
    | some corr =>
      rw [hl] at h
      cases h
      exact ⟨corr, rfl, by simpa using hz, rfl⟩
  · rw [if_neg hz] at h
    cases h

theorem mem_ionRowE (inp : MPInput) (conc : ℚ) (d : List (String × ℚ))
    (elt : String) (r : List PBX) (h : ionRowE inp conc d elt = Except.ok r)
    (e : PBX) (he : e ∈ r) :
    ∃ p ∈ d, ionEntryE inp conc elt p.1 p.2 = Except.ok (some e) := by
  unfold ionRowE at h
  cases hm : emapM (fun p => ionEntryE inp conc elt p.1 p.2) d with
  | error msg => rw [hm] at h; exact absurd h (by simp [Except.map])
  | ok os =>
    rw [hm] at h
    simp only [Except.map] at h
    cases h
    rcases List.mem_filterMap.mp he with ⟨o, ho, hoe⟩
    rcases emapM_ok_mem _ d os hm o ho with ⟨p, hp, hfp⟩
    cases o with
    | none => cases hoe
    | some e2 =>
      cases hoe
      exact ⟨p, hp, hfp⟩

theorem mem_ionEntriesFromDict (inp : MPInput) (conc : ℚ)
    (d : List (String × ℚ)) (l : List PBX)
    (h : ionEntriesFromDict inp conc d = Except.ok l) (e : PBX) (he : e ∈ l) :
    ∃ elt ∈ elems inp, ∃ p ∈ d,
      ionEntryE inp conc elt p.1 p.2 = Except.ok (some e) := by
  unfold ionEntriesFromDict at h
  cases hm : emapM (fun elt => ionRowE inp conc d elt) (elems inp) with
  | error msg => rw [hm] at h; exact absurd h (by simp [Except.map])
  | ok rows =>
    rw [hm] at h
    simp only [Except.map] at h
    cases h
    rcases List.mem_flatten.mp he with ⟨r, hr, her⟩
    rcases emapM_ok_mem _ (elems inp) rows hm r hr with ⟨elt, helt, hrow⟩
    exact ⟨elt, helt, mem_ionRowE inp conc d elt r hrow e her⟩

/-- C8: for every ion formula in the dictionary and every element of the
system, if the ion's composition contains zero atoms of the element, then
no Pourbaix ion entry is created for that (ion, element) pair. -/
theorem claim8_zero_amount_skipped (inp : MPInput) (conc : ℚ)
    (d : List (String × ℚ)) (l : List PBX) (elt key : String)
    (h : ionEntriesFromDict inp conc d = Except.ok l)
    (hz : Cmps.amount (inp.ionFromFormula key).1 elt = 0) :
    l.filter (fun e => e.srcElt == some elt && e.name == key) = [] := by
  rw [List.filter_eq_nil_iff]
  intro e he hP
  rcases mem_ionEntriesFromDict inp conc d l h e he with ⟨elt2, _, p, _, hok⟩
  rcases ionEntryE_ok_some inp conc elt2 p.1 p.2 e hok with ⟨corr, _, hnz, hE⟩
  subst hE
  simp only [Bool.and_eq_true, beq_iff_eq, Option.some.injEq] at hP
  obtain ⟨h1, h2⟩ := hP
  rw [h1, h2] at hnz
  exact hnz hz

def inpC8 : MPInput :=
  { comp := [("M", 1)]
    energy := 0
    expFormEnergy := [("M", [("MO", -1)])]
    ionCorrection := [("M", 1)]
    endMembers := [("M", 0)]
    ionFromFormula := fun k => if k == "MO" then ([("M", 1), ("O", 1)], 0) else ([], 0) }

def ionC8 : PBX :=
  { name := "MO"
    entryId := none
    comp := [("M", 1), ("O", 1)]
    energy := -1
    correction := 1 * 1
    conc := 1/1000000
    charge := 0
    srcElt := some "M" }

theorem claim8_witness :
    ionEntriesFromDict inpC8 (1/1000000) [("MO", -1)] = Except.ok [ionC8] ∧
    Cmps.amount ((inpC8.ionFromFormula "ZZ").1) "M" = 0 ∧
    [ionC8].filter (fun e => e.srcElt == some "M" && e.name == "ZZ") = [] := by
  have h1 : ionEntriesFromDict inpC8 (1/1000000) [("MO", -1)] = Except.ok [ionC8] := by
    simp [ionEntriesFromDict, ionRowE, emapM, ionEntryE, elems, chemsys, inpC8,
      ionC8, Cmps.amount, lookupD, Bind.bind, Except.bind, Except.map]
  have h2 : Cmps.amount ((inpC8.ionFromFormula "ZZ").1) "M" = 0 := by
    simp [inpC8, Cmps.amount]
  exact ⟨h1, h2,
    claim8_zero_amount_skipped inpC8 (1/1000000) [("MO", -1)] [ionC8] "M" "ZZ" h1 h2⟩


/-- C5: the compound energy used for hull construction at metastability
`m` is exactly the energy at metastability 0 lowered by
`num_atoms * m / 1000`, and this flat shift propagates additively into the
formation energy. -/
theorem claim5_metastability_shift (inp : MPInput) (m : ℚ) :
    cmpdEnergy inp m = cmpdEnergy inp 0 - Cmps.numAtoms inp.comp * m / 1000 ∧
    ∀ fe0 fem : ℚ, formEnergyE inp 0 = Except.ok fe0 →
      formEnergyE inp m = Except.ok fem →
      fem = fe0 - Cmps.numAtoms inp.comp * m / 1000 := by
  constructor
  · unfold cmpdEnergy; ring
  · intro fe0 fem h0 hm
    cases hs : endSumE inp with
    | error msg =>
      rw [formEnergyE, hs] at h0
      exact absurd h0 (by simp [Except.map])
    | ok s =>
      rw [formEnergyE, hs] at h0 hm
      simp only [Except.map] at h0 hm
      cases h0
      cases hm
      unfold cmpdEnergy
      ring

def inpC5 : MPInput :=
  { comp := [("X", 2)]
    energy := -1
    expFormEnergy := []
    ionCorrection := []
    endMembers := [("X", 0)]
    ionFromFormula := fun _ => ([], 0) }

theorem claim5_witness :
    formEnergyE inpC5 0 = Except.ok (-1) ∧
    formEnergyE inpC5 500 = Except.ok (-2) ∧
    (-2 : ℚ) = -1 - Cmps.numAtoms inpC5.comp * 500 / 1000 := by
  have h1 : formEnergyE inpC5 0 = Except.ok (-1) := by
    norm_num [formEnergyE, endSumE, cmpdEnergy, inpC5, Cmps.amount, Cmps.numAtoms,
      lookupD, Except.map, List.foldlM]
  have h2 : formEnergyE inpC5 500 = Except.ok (-2) := by
    norm_num [formEnergyE, endSumE, cmpdEnergy, inpC5, Cmps.amount, Cmps.numAtoms,
      lookupD, Except.map, List.foldlM]
  exact ⟨h1, h2, (claim5_metastability_shift inpC5 500).2 (-1) (-2) h1 h2⟩

def inpC1 : MPInput :=
  { comp := [("A", 1), ("B", 1)]
    energy := -1
    expFormEnergy := [("A", [("AB", -2)]), ("B", [])]
    ionCorrection := [("A", 3), ("B", 3)]
    endMembers := [("A", 0), ("B", 0)]
    ionFromFormula := fun k => if k == "AB" then ([("A", 1), ("B", 1)], 0) else ([], 0) }

def concC1 : ℚ := 1/1000000

def ionC1A : PBX :=
  { name := "AB", entryId := none, comp := [("A", 1), ("B", 1)], energy := -2
    correction := 3, conc := concC1, charge := 0, srcElt := some "A" }

def ionC1B : PBX :=
  { name := "AB", entryId := none, comp := [("A", 1), ("B", 1)], energy := -2
    correction := 3, conc := concC1, charge := 0, srcElt := some "B" }

/-- C1: `make_plot` never calls `contains_entry`; on this input the entry
list passed to `PourbaixDiagram` is the unfiltered
`[pbx_cmpd] + pbx_ion_entries`, and its third entry is a duplicate of the
first two in exactly the sense of `contains_entry` (same `entry_id`, and
same reduced formula with energies per atom within `1e-6`), contradicting
the claim that no such duplicate pair reaches the diagram builder. -/
theorem claim1_no_dedup_eval :
    allEntriesE inpC1 0 concC1 =
      Except.ok [cmpdPbx inpC1 (-1), ionC1A, ionC1B] ∧
    contains_entry [cmpdPbx inpC1 (-1), ionC1A] ionC1B = true := by
  have hd : ionDictE inpC1 = Except.ok [("AB", -2)] := by
    simp [ionDictE, chemsys, inpC1, lookupD, updateD, List.foldlM,
      Bind.bind, Except.bind, Pure.pure, Except.pure]
  have hs : endSumE inpC1 = Except.ok 0 := by
    simp [endSumE, inpC1, lookupD, Cmps.amount, List.foldlM, Bind.bind,
      Except.bind, Pure.pure, Except.pure]
  have hf : formEnergyE inpC1 0 = Except.ok (-1) := by
    unfold formEnergyE
    rw [hs]
    norm_num [Except.map, cmpdEnergy, inpC1, Cmps.numAtoms]
  have hi : ionEntriesFromDict inpC1 concC1 [("AB", -2)] =
      Except.ok [ionC1A, ionC1B] := by
    simp [ionEntriesFromDict, ionRowE, emapM, ionEntryE, elems, chemsys, inpC1,
      ionC1A, ionC1B, Cmps.amount, lookupD, Bind.bind, Except.bind, Except.map,
      Pure.pure, Except.pure]
  constructor
  · unfold allEntriesE
    rw [hd, hf]
    simp [Bind.bind, Except.bind, Pure.pure, Except.pure, hi]
  · simp [contains_entry, cmpdPbx, inpC1, ionC1B]

/-- Doubling the DFT correction factor recorded for one element. -/
def doubleCorr (t : List (String × ℚ)) (e0 : String) : List (String × ℚ) :=
  t.map (fun p => if p.1 == e0 then (p.1, 2 * p.2) else p)

/-- The induced change on a generated ion entry: entries generated for the
element whose factor was doubled get their correction doubled, all others
are unchanged. -/
def selScale (e0 : String) (e : PBX) : PBX :=
  if e.srcElt == some e0 then
    { e with correction := 2 * e.correction }
  else e

theorem lookupD_doubleCorr (t : List (String × ℚ)) (e0 k : String) :
    lookupD (doubleCorr t e0) k =
      if k = e0 then (lookupD t k).map (fun v => 2 * v) else lookupD t k := by
  induction t with
  | nil => simp [doubleCorr, lookupD]
  | cons p t ih =>
    by_cases hpe : p.1 = e0
    · by_cases hpk : p.1 = k
      · have hke : k = e0 := by rw [← hpk, hpe]
        simp [doubleCorr, lookupD, hpe, hpk, hke, ih, doubleCorr]
      · have hek : ¬ e0 = k := fun h => hpk (hpe.trans h)
        simpa [doubleCorr, lookupD, hpe, hpk, hek] using ih
    · by_cases hpk : p.1 = k
      · have hke : ¬ k = e0 := fun h => hpe (hpk.trans h)
        simp [doubleCorr, lookupD, hpe, hpk, hke]
      · simpa [doubleCorr, lookupD, hpe, hpk] using ih

theorem ionEntryE_doubleCorr (inp : MPInput) (e0 : String) (conc : ℚ)
    (elt key : String) (en : ℚ) :
    ionEntryE { inp with ionCorrection := doubleCorr inp.ionCorrection e0 }
        conc elt key en
      = (ionEntryE inp conc elt key en).map (Option.map (selScale e0)) := by
  unfold ionEntryE
  by_cases hz : Cmps.amount (inp.ionFromFormula key).1 elt != 0
  · rw [if_pos hz, if_pos hz]
    show (match lookupD (doubleCorr inp.ionCorrection e0) elt with
      | none => _ | some _ => _) = _
    rw [lookupD_doubleCorr]
    by_cases helt : elt = e0
    · subst helt
      rw [if_pos rfl]
      cases hl : lookupD inp.ionCorrection elt with
      | none => simp [Except.map]
      | some corr => simp [Except.map, selScale, mul_assoc]
    · rw [if_neg helt]
      cases hl : lookupD inp.ionCorrection elt with
      | none => simp [Except.map]
      | some corr => simp [Except.map, selScale, helt]
  · rw [if_neg hz, if_neg hz]
    simp [Except.map]

theorem emapM_map_of_eq {α β γ : Type} (f : α → Except String β)
    (g : α → Except String γ) (h : β → γ) (l : List α)
    (hfg : ∀ a ∈ l, g a = (f a).map h) :
    emapM g l = (emapM f l).map (List.map h) := by
  induction l with
  | nil => simp [emapM, Except.map]
  | cons a t ih =>
    have hga := hfg a (List.mem_cons_self a t)
    have hgt : emapM g t = (emapM f t).map (List.map h) :=
      ih (fun x hx => hfg x (List.mem_cons_of_mem a hx))
    cases hfa : f a with
    | error msg =>
      rw [hfa] at hga
      simp [emapM, hga, hfa, Bind.bind, Except.bind, Except.map]
    | ok b =>
      rw [hfa] at hga
      cases hft : emapM f t with
      | error msg =>
        rw [hft] at hgt
        simp [emapM, hga, hfa, hft, hgt, Bind.bind, Except.bind, Except.map]
      | ok r =>
        rw [hft] at hgt
        simp [emapM, hga, hfa, hft, hgt, Bind.bind, Except.bind, Except.map]

theorem filterMap_option_map {α β : Type} (f : α → β) (l : List (Option α)) :
    l.filterMap (Option.map f) = (l.filterMap id).map f := by
  induction l with
  | nil => rfl
  | cons o t ih => cases o <;> simp [ih]

theorem exceptMap_map {ε α β γ : Type} (f : α → β) (g : β → γ) (x : Except ε α) :
    (x.map f).map g = x.map (fun a => g (f a)) := by
  cases x <;> rfl

theorem ionRowE_doubleCorr (inp : MPInput) (e0 : String) (conc : ℚ)
    (d : List (String × ℚ)) (elt : String) :
    ionRowE { inp with ionCorrection := doubleCorr inp.ionCorrection e0 }
        conc d elt
      = (ionRowE inp conc d elt).map (List.map (selScale e0)) := by
  unfold ionRowE
  rw [emapM_map_of_eq (fun p => ionEntryE inp conc elt p.1 p.2) _
    (Option.map (selScale e0)) d
    (fun p _ => ionEntryE_doubleCorr inp e0 conc elt p.1 p.2)]
  rw [exceptMap_map, exceptMap_map]
  cases emapM (fun p => ionEntryE inp conc elt p.1 p.2) d with
  | error msg => rfl
  | ok os => simp [Except.map, filterMap_option_map]

theorem ionEntriesFromDict_doubleCorr (inp : MPInput) (e0 : String) (conc : ℚ)
    (d : List (String × ℚ)) :
    ionEntriesFromDict { inp with ionCorrection := doubleCorr inp.ionCorrection e0 }
        conc d
      = (ionEntriesFromDict inp conc d).map (List.map (selScale e0)) := by
  unfold ionEntriesFromDict
  have helems : elems { inp with ionCorrection := doubleCorr inp.ionCorrection e0 }
      = elems inp := rfl
  rw [helems]
  rw [emapM_map_of_eq (fun elt => ionRowE inp conc d elt) _
    (List.map (selScale e0)) (elems inp)
    (fun elt _ => ionRowE_doubleCorr inp e0 conc d elt)]
  rw [exceptMap_map, exceptMap_map]
  cases emapM (fun elt => ionRowE inp conc d elt) (elems inp) with
  | error msg => rfl
  | ok rows => simp [Except.map, Function.comp]

/-- C3: every generated ion entry carries, additively on top of its
experimental formation energy, a correction equal to the DFT correction
factor of its source element times that element's stoichiometric amount
(`factor`) in the ion formula; and doubling the correction factor recorded
for an element doubles the correction of exactly the entries generated for
that element. -/
theorem claim3_ion_correction (inp : MPInput) (conc : ℚ)
    (d : List (String × ℚ)) (l : List PBX) (e0 : String)
    (h : ionEntriesFromDict inp conc d = Except.ok l) :
    (∀ e ∈ l, ∃ elt corr, e.srcElt = some elt ∧
        lookupD inp.ionCorrection elt = some corr ∧
        Cmps.amount (inp.ionFromFormula e.name).1 elt ≠ 0 ∧
        e.correction = corr * Cmps.amount (inp.ionFromFormula e.name).1 elt ∧
        e.g0 = e.energy + corr * Cmps.amount (inp.ionFromFormula e.name).1 elt) ∧
    ionEntriesFromDict { inp with ionCorrection := doubleCorr inp.ionCorrection e0 }
        conc d
      = Except.ok (l.map (selScale e0)) := by
  constructor
  · intro e he
    rcases mem_ionEntriesFromDict inp conc d l h e he with ⟨elt, _, p, _, hok⟩
    rcases ionEntryE_ok_some inp conc elt p.1 p.2 e hok with ⟨corr, hcorr, hnz, hE⟩
    subst hE
    exact ⟨elt, corr, rfl, hcorr, hnz, rfl, rfl⟩
  · rw [ionEntriesFromDict_doubleCorr, h]
    rfl

def inpC3 : MPInput :=
  { comp := [("M", 1)]
    energy := 0
    expFormEnergy := [("M", [("MO2", -4)])]
    ionCorrection := [("M", 5)]
    endMembers := [("M", 0)]
    ionFromFormula := fun k => if k == "MO2" then ([("M", 1), ("O", 2)], -2) else ([], 0) }

def concC3 : ℚ := 1/1000000

def ionC3 : PBX :=
  { name := "MO2", entryId := none, comp := [("M", 1), ("O", 2)], energy := -4
    correction := 5, conc := concC3, charge := -2, srcElt := some "M" }

theorem claim3_witness :
    ionEntriesFromDict inpC3 concC3 [("MO2", -4)] = Except.ok [ionC3] ∧
    ionEntriesFromDict { inpC3 with ionCorrection := doubleCorr inpC3.ionCorrection "M" }
        concC3 [("MO2", -4)]
      = Except.ok [selScale "M" ionC3] := by
  have h1 : ionEntriesFromDict inpC3 concC3 [("MO2", -4)] = Except.ok [ionC3] := by
    simp [ionEntriesFromDict, ionRowE, emapM, ionEntryE, elems, chemsys, inpC3,
      ionC3, Cmps.amount, lookupD, Bind.bind, Except.bind, Except.map,
      Pure.pure, Except.pure]
  exact ⟨h1, (claim3_ion_correction inpC3 concC3 [("MO2", -4)] [ionC3] "M" h1).2⟩

theorem ionRowE_cons (inp : MPInput) (conc : ℚ) (elt : String)
    (p : String × ℚ) (t : List (String × ℚ)) :
    ionRowE inp conc (p :: t) elt = (do
      let o ← ionEntryE inp conc elt p.1 p.2
      let r ← ionRowE inp conc t elt
      Except.ok (o.toList ++ r)) := by
  unfold ionRowE
  show (emapM _ (p :: t)).map _ = _
  rw [emapM]
  cases ho : ionEntryE inp conc elt p.1 p.2 with
  | error msg => simp [Bind.bind, Except.bind, Except.map]
  | ok o =>
    cases ht : emapM (fun q => ionEntryE inp conc elt q.1 q.2) t with
    | error msg => simp [Bind.bind, Except.bind, Except.map]
    | ok os =>
      simp only [Bind.bind, Except.bind, Except.map]
      cases o <;> simp [List.filterMap_cons, Option.toList]

theorem ionRowE_names (inp : MPInput) (conc : ℚ) (d : List (String × ℚ))
    (elt : String) (r : List PBX) (h : ionRowE inp conc d elt = Except.ok r) :
    ∀ e ∈ r, e.name ∈ d.map (fun p => p.1) := by
  intro e he
  rcases mem_ionRowE inp conc d elt r h e he with ⟨p, hp, hok⟩
  rcases ionEntryE_ok_some inp conc elt p.1 p.2 e hok with ⟨corr, _, _, hE⟩
  subst hE
  exact List.mem_map.mpr ⟨p, hp, rfl⟩

theorem ionRowE_count (inp : MPInput) (conc : ℚ) (elt key : String) :
    ∀ (d : List (String × ℚ)) (r : List PBX), (d.map (fun p => p.1)).Nodup →
      (∃ en, (key, en) ∈ d) → ionRowE inp conc d elt = Except.ok r →
      (r.filter (fun e => e.name == key)).length =
        (if Cmps.amount (inp.ionFromFormula key).1 elt != 0 then 1 else 0) := by
  intro d
  induction d with
  | nil =>
    intro r _ hk _
    rcases hk with ⟨en, hmem⟩
    exact absurd hmem (List.not_mem_nil _)
  | cons p t ih =>
    intro r hnod hk h
    rw [ionRowE_cons] at h
    cases ho : ionEntryE inp conc elt p.1 p.2 with
    | error msg => rw [ho] at h; exact absurd h (by simp [Bind.bind, Except.bind])
    | ok o =>
      rw [ho] at h
      cases ht : ionRowE inp conc t elt with
      | error msg => rw [ht] at h; exact absurd h (by simp [Bind.bind, Except.bind])
      | ok r0 =>
        rw [ht] at h
        simp only [Bind.bind, Except.bind] at h
        cases h
        rw [List.filter_append, List.length_append]
        have hnod2 : p.1 ∉ t.map (fun q => q.1) ∧ (t.map (fun q => q.1)).Nodup := by
          rw [List.map_cons, List.nodup_cons] at hnod
          exact hnod
        by_cases hpk : p.1 = key
        · -- the head pair is the formula `key`; the tail cannot contain it
          have hkt : key ∉ t.map (fun q => q.1) := by
            rw [← hpk]
            exact hnod2.1
          have htail : r0.filter (fun e => e.name == key) = [] := by
            rw [List.filter_eq_nil_iff]
            intro e he hP
            exact hkt (by
              have := ionRowE_names inp conc t elt r0 ht e he
              rwa [show e.name = key from by simpa using hP] at this)
          rw [htail]
          subst hpk
          -- head contribution: exactly the indicator of factor ≠ 0
          unfold ionEntryE at ho
          by_cases hz : Cmps.amount (inp.ionFromFormula p.1).1 elt != 0
          · rw [if_pos hz] at ho
            cases hl : lookupD inp.ionCorrection elt with
            | none => rw [hl] at ho; exact absurd ho (by simp)
            | some corr =>
              rw [hl] at ho
              cases ho
              simp [Option.toList, hz]
          · rw [if_neg hz] at ho
            cases ho
            simp [Option.toList, hz]
        · -- head pair is another formula: contributes nothing to the count
          have hhead : (o.toList.filter (fun e => e.name == key)).length = 0 := by
            cases o with
            | none => rfl
            | some e =>
              rcases ionEntryE_ok_some inp conc elt p.1 p.2 e ho with ⟨corr, _, _, hE⟩
              subst hE
              simp [Option.toList, hpk]
          rw [hhead]
          have hk2 : ∃ en, (key, en) ∈ t := by
            rcases hk with ⟨en, hmem⟩
            rcases List.mem_cons.mp hmem with hmem | hmem
            · exact absurd (congrArg Prod.fst hmem).symm hpk
            · exact ⟨en, hmem⟩
          rw [ih r0 hnod2.2 hk2 ht]
          simp

theorem flatten_count_aux (inp : MPInput) (conc : ℚ) (key : String)
    (d : List (String × ℚ)) (hnod : (d.map (fun p => p.1)).Nodup)
    (hk : ∃ en, (key, en) ∈ d) :
    ∀ (L : List String) (rows : List (List PBX)),
      emapM (fun elt => ionRowE inp conc d elt) L = Except.ok rows →
      ((rows.flatten).filter (fun e => e.name == key)).length =
        (L.filter (fun elt =>
          Cmps.amount (inp.ionFromFormula key).1 elt != 0)).length := by
  intro L
  induction L with
  | nil =>
    intro rows h
    simp only [emapM] at h
    cases h
    rfl
  | cons elt L ih =>
    intro rows h
    cases ho : ionRowE inp conc d elt with
    | error msg =>
      rw [emapM, ho] at h
      exact absurd h (by simp [Bind.bind, Except.bind])
    | ok r =>
      cases ht : emapM (fun elt => ionRowE inp conc d elt) L with
      | error msg =>
        rw [emapM, ho, ht] at h
        exact absurd h (by simp [Bind.bind, Except.bind])
      | ok rest =>
        rw [emapM, ho, ht] at h
        simp only [Bind.bind, Except.bind] at h
        cases h
        rw [List.flatten_cons, List.filter_append, List.length_append,
          ionRowE_count inp conc elt key d r hnod hk ho, ih rest ht,
          List.filter_cons]
        by_cases hz : Cmps.amount (inp.ionFromFormula key).1 elt != 0
        · simp [hz, Nat.add_comm]
        · simp [hz]

/-- C10: for an ion formula recorded once in the merged ion dictionary,
the generated entry list contains exactly one entry named by that formula
per element of the system whose amount in the ion's composition is
nonzero — the same species is appended once for each such element. -/
theorem claim10_entry_per_element (inp : MPInput) (conc : ℚ)
    (d : List (String × ℚ)) (l : List PBX) (key : String)
    (h : ionEntriesFromDict inp conc d = Except.ok l)
    (hnod : (d.map (fun p => p.1)).Nodup)
    (hk : ∃ en, (key, en) ∈ d) :
    (l.filter (fun e => e.name == key)).length =
      ((elems inp).filter (fun elt =>
        Cmps.amount (inp.ionFromFormula key).1 elt != 0)).length := by
  unfold ionEntriesFromDict at h
  cases hm : emapM (fun elt => ionRowE inp conc d elt) (elems inp) with
  | error msg => rw [hm] at h; exact absurd h (by simp [Except.map])
  | ok rows =>
    rw [hm] at h
    simp only [Except.map] at h
    cases h
    exact flatten_count_aux inp conc key d hnod hk (elems inp) rows hm

def inpC10 : MPInput :=
  { comp := [("A", 1), ("B", 1)]
    energy := 0
    expFormEnergy := [("A", [("AB2", -3)]), ("B", [])]
    ionCorrection := [("A", 1), ("B", 2)]
    endMembers := [("A", 0), ("B", 0)]
    ionFromFormula := fun k => if k == "AB2" then ([("A", 1), ("B", 2)], 1) else ([], 0) }

def concC10 : ℚ := 1/1000000

def ionC10A : PBX :=
  { name := "AB2", entryId := none, comp := [("A", 1), ("B", 2)], energy := -3
    correction := 1, conc := concC10, charge := 1, srcElt := some "A" }

def ionC10B : PBX :=
  { name := "AB2", entryId := none, comp := [("A", 1), ("B", 2)], energy := -3
    correction := 4, conc := concC10, charge := 1, srcElt := some "B" }

theorem claim10_witness :
    ionEntriesFromDict inpC10 concC10 [("AB2", -3)] =
      Except.ok [ionC10A, ionC10B] ∧
    ([ionC10A, ionC10B].filter (fun e => e.name == "AB2")).length =
      ((elems inpC10).filter (fun elt =>
        Cmps.amount ((inpC10.ionFromFormula "AB2").1) elt != 0)).length := by
  have h1 : ionEntriesFromDict inpC10 concC10 [("AB2", -3)] =
      Except.ok [ionC10A, ionC10B] := by
    simp only [ionEntriesFromDict, ionRowE, emapM, ionEntryE, elems, chemsys,
      inpC10, Cmps.amount, lookupD, Bind.bind, Except.bind, Except.map,
      Pure.pure, Except.pure]
    simp [ionC10A, ionC10B]
    norm_num
  exact ⟨h1,
    claim10_entry_per_element inpC10 concC10 [("AB2", -3)] [ionC10A, ionC10B]
      "AB2" h1 (by simp) ⟨-3, List.mem_cons_self _ _⟩⟩

theorem ionDictE_fold_ok (inp : MPInput) :
    ∀ (L : List String) (acc : List (String × ℚ)),
      (∀ elt ∈ L, (elt == "O" || elt == "H") = true ∨
        ∃ v, lookupD inp.expFormEnergy elt = some v) →
      ∃ d, L.foldlM
        (fun d elt =>
          if elt == "O" || elt == "H" then Except.ok d
          else
            match lookupD inp.expFormEnergy elt with
            | none => Except.error ("KeyError: " ++ elt)
            | some l => Except.ok (if l.isEmpty then d else updateD d l))
        acc = Except.ok d := by
  intro L
  induction L with
  | nil => intro acc _; exact ⟨acc, rfl⟩
  | cons e t ih =>
    intro acc hp
    rw [List.foldlM_cons]
    cases hOH : (e == "O" || e == "H") with
    | true =>
      rw [if_pos rfl]
      rcases ih acc (fun x hx => hp x (List.mem_cons_of_mem e hx)) with ⟨d, hd⟩
      exact ⟨d, by simpa [Bind.bind, Except.bind] using hd⟩
    | false =>
      rcases hp e (List.mem_cons_self e t) with h | ⟨v, hv⟩
      · rw [hOH] at h; exact absurd h (by simp)
      · rw [if_neg (by simp), hv]
        rcases ih (if v.isEmpty then acc else updateD acc v)
          (fun x hx => hp x (List.mem_cons_of_mem e hx)) with ⟨d, hd⟩
        exact ⟨d, by simpa [Bind.bind, Except.bind] using hd⟩

theorem ionDictE_ok_of (inp : MPInput)
    (h1 : ∀ elt ∈ elems inp, ∃ L, lookupD inp.expFormEnergy elt = some L) :
    ∃ d, ionDictE inp = Except.ok d := by
  apply ionDictE_fold_ok inp (chemsys inp) []
  intro elt helt
  cases hOH : (elt == "O" || elt == "H") with
  | true => exact Or.inl rfl
  | false =>
    refine Or.inr (h1 elt ?_)
    unfold elems
    rw [List.mem_filter]
    exact ⟨helt, by simp [hOH]⟩

theorem endSumE_fold_ok (inp : MPInput) :
    ∀ (L : List (String × ℚ)) (acc : ℚ),
      (∀ p ∈ L, ∃ v, lookupD inp.endMembers p.1 = some v) →
      ∃ s, L.foldlM
        (fun s p =>
          match lookupD inp.endMembers p.1 with
          | none => Except.error ("KeyError: " ++ p.1)
          | some v => Except.ok (s + v * Cmps.amount inp.comp p.1))
        acc = Except.ok s := by
  intro L
  induction L with
  | nil => intro acc _; exact ⟨acc, rfl⟩
  | cons p t ih =>
    intro acc hp
    rw [List.foldlM_cons]
    rcases hp p (List.mem_cons_self p t) with ⟨v, hv⟩
    rw [hv]
    rcases ih (acc + v * Cmps.amount inp.comp p.1)
      (fun x hx => hp x (List.mem_cons_of_mem p hx)) with ⟨s, hs⟩
    exact ⟨s, by simpa [Bind.bind, Except.bind] using hs⟩

theorem emapM_ok_of {α β : Type} (f : α → Except String β) :
    ∀ (l : List α), (∀ a ∈ l, ∃ b, f a = Except.ok b) →
      ∃ r, emapM f l = Except.ok r := by
  intro l
  induction l with
  | nil => intro _; exact ⟨[], rfl⟩
  | cons a t ih =>
    intro hp
    rcases hp a (List.mem_cons_self a t) with ⟨b, hb⟩
    rcases ih (fun x hx => hp x (List.mem_cons_of_mem a hx)) with ⟨r, hr⟩
    exact ⟨b :: r, by simp [emapM, hb, hr, Bind.bind, Except.bind]⟩

theorem emapM_const_ok {α β : Type} (f : α → Except String β) (b0 : β) :
    ∀ (l : List α), (∀ a ∈ l, f a = Except.ok b0) →
      emapM f l = Except.ok (l.map (fun _ => b0)) := by
  intro l
  induction l with
  | nil => intro _; rfl
  | cons a t ih =>
    intro hp
    rw [emapM, hp a (List.mem_cons_self a t),
      ih (fun x hx => hp x (List.mem_cons_of_mem a hx))]
    simp [Bind.bind, Except.bind]

theorem ionEntriesFromDict_ok_of (inp : MPInput) (conc : ℚ)
    (d : List (String × ℚ))
    (h3 : ∀ elt ∈ elems inp, ∃ c, lookupD inp.ionCorrection elt = some c) :
    ∃ l, ionEntriesFromDict inp conc d = Except.ok l := by
  unfold ionEntriesFromDict
  have hrows : ∃ rows, emapM (fun elt => ionRowE inp conc d elt) (elems inp)
      = Except.ok rows := by
    apply emapM_ok_of
    intro elt helt
    unfold ionRowE
    have hos : ∃ os, emapM (fun p => ionEntryE inp conc elt p.1 p.2) d
        = Except.ok os := by
      apply emapM_ok_of
      intro p _
      unfold ionEntryE
      by_cases hz : Cmps.amount ((inp.ionFromFormula p.1)).1 elt != 0
      · rcases h3 elt helt with ⟨c, hc⟩
        rw [if_pos hz, hc]
        exact ⟨_, rfl⟩
      · rw [if_neg hz]
        exact ⟨none, rfl⟩
    rcases hos with ⟨os, hos⟩
    exact ⟨os.filterMap id, by rw [hos]; rfl⟩
  rcases hrows with ⟨rows, hrows⟩
  exact ⟨rows.flatten, by rw [hrows]; rfl⟩

theorem ionDictE_keep_empty (inp : MPInput) :
    ∀ (L : List String) (acc : List (String × ℚ)),
      (∀ elt ∈ L, (elt == "O" || elt == "H") = true ∨
        lookupD inp.expFormEnergy elt = some []) →
      L.foldlM
        (fun d elt =>
          if elt == "O" || elt == "H" then Except.ok d
          else
            match lookupD inp.expFormEnergy elt with
            | none => Except.error ("KeyError: " ++ elt)
            | some l => Except.ok (if l.isEmpty then d else updateD d l))
        acc = Except.ok acc := by
  intro L
  induction L with
  | nil => intro acc _; rfl
  | cons e t ih =>
    intro acc hp
    rw [List.foldlM_cons]
    cases hOH : (e == "O" || e == "H") with
    | true =>
      rw [if_pos rfl]
      simpa [Bind.bind, Except.bind] using
        ih acc (fun x hx => hp x (List.mem_cons_of_mem e hx))
    | false =>
      rcases hp e (List.mem_cons_self e t) with h | hv
      · rw [hOH] at h; exact absurd h (by simp)
      · rw [if_neg (by simp), hv]
        simp only [List.isEmpty, if_pos rfl, Bind.bind, Except.bind]
        exact ih acc (fun x hx => hp x (List.mem_cons_of_mem e hx))

theorem flatten_map_nil {α β : Type} (l : List α) :
    (l.map (fun _ => ([] : List β))).flatten = [] := by
  induction l with
  | nil => rfl
  | cons a t ih => simp [ih]

def inpC4 : MPInput :=
  { comp := [("Q", 1)]
    energy := 0
    expFormEnergy := []
    ionCorrection := []
    endMembers := [("Q", 0)]
    ionFromFormula := fun _ => ([], 0) }

/-- C4, counterexample: the chemical system contains the non-O/H element
`Q`, the reference ion table has no record at all for `Q`, and `make_plot`
does not proceed: the `exp_dict[elt]` lookup raises `KeyError`, so no
diagram and no instability score are produced. -/
theorem claim4_counterexample :
    "Q" ∈ elems inpC4 ∧ lookupD inpC4.expFormEnergy "Q" = none ∧
    allEntriesE inpC4 0 1 = Except.error ("KeyError: " ++ "Q") := by
  refine ⟨by simp [elems, chemsys, inpC4], rfl, ?_⟩
  simp [allEntriesE, ionDictE, chemsys, inpC4, lookupD, List.foldlM,
    Bind.bind, Except.bind, Pure.pure, Except.pure]

/-- C4, amended: when every non-O/H element of the system is present as a
key of the ion table (even with an empty record), `make_plot` proceeds and
builds the entry list (given end-member and correction data for the
elements it touches); an element whose record is empty contributes nothing
to the merged ion dictionary, and if all records are empty the diagram is
built from the compound entry alone. A key missing entirely raises
`KeyError` instead (see the counterexample). -/
theorem claim4_no_ions_nonfatal (inp : MPInput) (m conc : ℚ)
    (h1 : ∀ elt ∈ elems inp, ∃ L, lookupD inp.expFormEnergy elt = some L)
    (h2 : ∀ p ∈ inp.comp, ∃ v, lookupD inp.endMembers p.1 = some v)
    (h3 : ∀ elt ∈ elems inp, ∃ c, lookupD inp.ionCorrection elt = some c) :
    (∃ L, allEntriesE inp m conc = Except.ok L) ∧
    ((∀ elt ∈ elems inp, lookupD inp.expFormEnergy elt = some []) →
      ∃ fe, formEnergyE inp m = Except.ok fe ∧
        allEntriesE inp m conc = Except.ok [cmpdPbx inp fe]) := by
  have hfe : ∃ fe, formEnergyE inp m = Except.ok fe := by
    rcases endSumE_fold_ok inp inp.comp 0 h2 with ⟨s, hs⟩
    exact ⟨cmpdEnergy inp m - s, by rw [formEnergyE, endSumE, hs]; rfl⟩
  constructor
  · rcases ionDictE_ok_of inp h1 with ⟨d, hd⟩
    rcases hfe with ⟨fe, hfev⟩
    rcases ionEntriesFromDict_ok_of inp conc d h3 with ⟨l, hl⟩
    refine ⟨cmpdPbx inp fe :: l, ?_⟩
    rw [allEntriesE, hd, hfev]
    simp only [Bind.bind, Except.bind]
    rw [hl]
    rfl
  · intro hempty
    have hd : ionDictE inp = Except.ok [] := by
      apply ionDictE_keep_empty inp (chemsys inp) []
      intro elt helt
      cases hOH : (elt == "O" || elt == "H") with
      | true => exact Or.inl rfl
      | false =>
        refine Or.inr (hempty elt ?_)
        unfold elems
        rw [List.mem_filter]
        exact ⟨helt, by simp [hOH]⟩
    have hions : ionEntriesFromDict inp conc [] = Except.ok [] := by
      unfold ionEntriesFromDict
      rw [emapM_const_ok (fun elt => ionRowE inp conc [] elt) []
        (elems inp) (fun _ _ => rfl)]
      simp [Except.map, flatten_map_nil]
    rcases hfe with ⟨fe, hfev⟩
    refine ⟨fe, hfev, ?_⟩
    rw [allEntriesE, hd, hfev]
    simp only [Bind.bind, Except.bind]
    rw [hions]
    rfl

def inpC4W : MPInput :=
  { comp := [("X", 1)]
    energy := 0
    expFormEnergy := [("X", [])]
    ionCorrection := [("X", 0)]
    endMembers := [("X", 0)]
    ionFromFormula := fun _ => ([], 0) }

theorem claim4_witness :
    allEntriesE inpC4W 0 1 = Except.ok [cmpdPbx inpC4W 0] := by
  have h := (claim4_no_ions_nonfatal inpC4W 0 1
    (by intro elt helt; simp [elems, chemsys, inpC4W] at helt
        exact ⟨[], by simp [inpC4W, lookupD, helt]⟩)
    (by intro p hp; simp [inpC4W] at hp
        exact ⟨0, by simp [inpC4W, lookupD, hp]⟩)
    (by intro elt helt; simp [elems, chemsys, inpC4W] at helt
        exact ⟨0, by simp [inpC4W, lookupD, helt]⟩)).2
    (by intro elt helt; simp [elems, chemsys, inpC4W] at helt
        simp [inpC4W, lookupD, helt])
  rcases h with ⟨fe, hfe, hall⟩
  have hfe0 : formEnergyE inpC4W 0 = Except.ok 0 := by
    norm_num [formEnergyE, endSumE, cmpdEnergy, inpC4W, Cmps.amount,
      Cmps.numAtoms, lookupD, Except.map, List.foldlM, Bind.bind, Except.bind,
      Pure.pure, Except.pure]
  rw [hfe0] at hfe
  cases hfe
  exact hall

theorem amount_of_nodup (c : Cmps) (hnod : (c.map (fun p => p.1)).Nodup) :
    ∀ p ∈ c, Cmps.amount c p.1 = p.2 := by
  induction c with
  | nil => intro p hp; exact absurd hp (List.not_mem_nil p)
  | cons q t ih =>
    intro p hp
    rw [List.map_cons, List.nodup_cons] at hnod
    rcases List.mem_cons.mp hp with hp | hp
    · subst hp
      simp [Cmps.amount]
    · have hne : ¬ (q.1 == p.1) = true := by
        intro hE
        exact hnod.1 (List.mem_map.mpr ⟨p, hp, by simpa using (eq_of_beq hE).symm⟩)
      rw [Cmps.amount, if_neg hne]
      exact ih hnod.2 p hp

theorem endSumE_fold_eq (inp : MPInput) :
    ∀ (L : List (String × ℚ)) (acc : ℚ) (s : ℚ),
      L.foldlM
        (fun s p =>
          match lookupD inp.endMembers p.1 with
          | none => Except.error ("KeyError: " ++ p.1)
          | some v => Except.ok (s + v * Cmps.amount inp.comp p.1))
        acc = Except.ok s →
      s = acc + (L.map (fun p =>
        ((lookupD inp.endMembers p.1).getD 0) * Cmps.amount inp.comp p.1)).sum := by
  intro L
  induction L with
  | nil =>
    intro acc s h
    cases h
    simp
  | cons p t ih =>
    intro acc s h
    rw [List.foldlM_cons] at h
    cases hv : lookupD inp.endMembers p.1 with
    | none => rw [hv] at h; exact absurd h (by simp [Bind.bind, Except.bind])
    | some v =>
      rw [hv] at h
      simp only [Bind.bind, Except.bind] at h
      rw [ih (acc + v * Cmps.amount inp.comp p.1) s h, List.map_cons,
        List.sum_cons, hv]
      simp only [Option.getD_some]
      ring

/-- C6: the reference free energy `g0` of the compound's Pourbaix entry is
the metastability-corrected total energy minus the sum over the
composition of each element's tabulated end-member reference energy times
its stoichiometric amount. -/
theorem claim6_g0_formation (inp : MPInput) (m : ℚ)
    (hnod : (inp.comp.map (fun p => p.1)).Nodup)
    (fe : ℚ) (hfe : formEnergyE inp m = Except.ok fe) :
    (cmpdPbx inp fe).g0 =
      (inp.energy - Cmps.numAtoms inp.comp * m / 1000) -
        (inp.comp.map (fun p =>
          ((lookupD inp.endMembers p.1).getD 0) * p.2)).sum := by
  cases hs : endSumE inp with
  | error msg =>
    rw [formEnergyE, hs] at hfe
    exact absurd hfe (by simp [Except.map])
  | ok s =>
    rw [formEnergyE, hs] at hfe
    simp only [Except.map] at hfe
    cases hfe
    have hsum := endSumE_fold_eq inp inp.comp 0 s hs
    have hmap : (inp.comp.map (fun p =>
        ((lookupD inp.endMembers p.1).getD 0) * Cmps.amount inp.comp p.1)).sum
        = (inp.comp.map (fun p =>
        ((lookupD inp.endMembers p.1).getD 0) * p.2)).sum := by
      apply congrArg
      apply List.map_congr_left
      intro p hp
      rw [amount_of_nodup inp.comp hnod p hp]
    show cmpdEnergy inp m - s + 0 = _
    rw [hsum, hmap, cmpdEnergy]
    ring

def inpC6 : MPInput :=
  { comp := [("X", 2)]
    energy := 3
    expFormEnergy := []
    ionCorrection := []
    endMembers := [("X", 1/2)]
    ionFromFormula := fun _ => ([], 0) }

theorem claim6_witness :
    formEnergyE inpC6 1000 = Except.ok 0 ∧
    (cmpdPbx inpC6 0).g0 =
      (inpC6.energy - Cmps.numAtoms inpC6.comp * 1000 / 1000) -
        (inpC6.comp.map (fun p =>
          ((lookupD inpC6.endMembers p.1).getD 0) * p.2)).sum := by
  have hfe : formEnergyE inpC6 1000 = Except.ok 0 := by
    norm_num [formEnergyE, endSumE, cmpdEnergy, inpC6, Cmps.amount,
      Cmps.numAtoms, lookupD, Except.map, List.foldlM, Bind.bind, Except.bind,
      Pure.pure, Except.pure]
  exact ⟨hfe, claim6_g0_formation inpC6 1000 (by simp [inpC6]) 0 hfe⟩

theorem foldl_min_le_init (l : List ℝ) : ∀ a : ℝ, l.foldl min a ≤ a := by
  induction l with
  | nil => intro a; exact le_refl a
  | cons b t ih =>
    intro a
    calc t.foldl min (min a b) ≤ min a b := ih (min a b)
      _ ≤ a := min_le_left a b

theorem foldl_min_le_mem (l : List ℝ) :
    ∀ (a y : ℝ), y ∈ l → l.foldl min a ≤ y := by
  induction l with
  | nil => intro a y hy; exact absurd hy (List.not_mem_nil y)
  | cons b t ih =>
    intro a y hy
    rcases List.mem_cons.mp hy with hy | hy
    · subst hy
      calc t.foldl min (min a y) ≤ min a y := foldl_min_le_init t (min a y)
        _ ≤ y := min_le_right a y
    · exact ih (min a b) y hy

theorem le_foldl_min (l : List ℝ) :
    ∀ (a b : ℝ), b ≤ a → (∀ y ∈ l, b ≤ y) → b ≤ l.foldl min a := by
  induction l with
  | nil => intro a b hba _; exact hba
  | cons c t ih =>
    intro a b hba hl
    exact ih (min a c) b (le_min hba (hl c (List.mem_cons_self c t)))
      (fun y hy => hl y (List.mem_cons_of_mem c hy))

theorem foldl_min_comm (l : List ℝ) :
    ∀ a b : ℝ, l.foldl min (min a b) = min a (l.foldl min b) := by
  induction l with
  | nil => intro a b; rfl
  | cons c t ih =>
    intro a b
    show t.foldl min (min (min a b) c) = min a (t.foldl min (min b c))
    rw [min_assoc, ih]

theorem gapF_nonneg (c : PBX) (es : List PBX) (x : ℝ × ℝ) :
    0 ≤ gapF c es x := by
  unfold gapF minG
  have := foldl_min_le_init (es.map (fun e => gOf e x)) (gOf c x)
  linarith

theorem minG_le_of_mem (c : PBX) (es : List PBX) (x : ℝ × ℝ) (e : PBX)
    (he : e ∈ c :: es) : minG c es x ≤ gOf e x := by
  rcases List.mem_cons.mp he with he | he
  · subst he
    exact foldl_min_le_init _ _
  · exact foldl_min_le_mem _ _ _ (List.mem_map.mpr ⟨e, he, rfl⟩)

theorem gapF_eq_zero_of_le (c : PBX) (es : List PBX) (x : ℝ × ℝ)
    (h : ∀ e ∈ es, gOf c x ≤ gOf e x) : gapF c es x = 0 := by
  unfold gapF minG
  have h1 := foldl_min_le_init (es.map (fun e => gOf e x)) (gOf c x)
  have h2 := le_foldl_min (es.map (fun e => gOf e x)) (gOf c x) (gOf c x)
    (le_refl _) (by
      intro y hy
      rcases List.mem_map.mp hy with ⟨e, he, rfl⟩
      exact h e he)
  linarith

theorem sub_min_self_eq (a b : ℝ) : a - min a b = max (a - b) 0 := by
  rcases le_total a b with h | h
  · rw [min_eq_left h, max_eq_right (by linarith)]
    ring
  · rw [min_eq_right h, max_eq_left (by linarith)]

theorem gapF_mono (c c2 : PBX) (es : List PBX) (x : ℝ × ℝ)
    (h : gOf c2 x ≤ gOf c x) : gapF c2 es x ≤ gapF c es x := by
  cases es with
  | nil =>
    unfold gapF minG
    simp
  | cons e t =>
    unfold gapF minG
    rw [List.map_cons, List.foldl_cons, List.foldl_cons,
      show min (gOf c2 x) (gOf e x) = min (gOf c2 x) (gOf e x) from rfl]
    rw [foldl_min_comm, foldl_min_comm]
    rw [sub_min_self_eq, sub_min_self_eq]
    exact max_le_max (by linarith) (le_refl 0)

theorem phDomain_zero_mem : ((0 : ℝ), (0 : ℝ)) ∈ phDomain := by
  constructor
  · constructor <;> norm_num
  · constructor <;> norm_num

theorem phDomain_compact : IsCompact phDomain :=
  isCompact_Icc.prod isCompact_Icc

theorem gapF_image_nonempty (c : PBX) (es : List PBX) :
    (gapF c es '' phDomain).Nonempty :=
  ⟨gapF c es ((0 : ℝ), (0 : ℝ)), ⟨_, phDomain_zero_mem, rfl⟩⟩

theorem gapF_image_bddBelow (c : PBX) (es : List PBX) :
    BddBelow (gapF c es '' phDomain) := by
  refine ⟨0, ?_⟩
  rintro y ⟨x, _, rfl⟩
  exact gapF_nonneg c es x

theorem eAboveHull_nonneg (c : PBX) (es : List PBX) : 0 ≤ eAboveHull c es :=
  le_csInf (gapF_image_nonempty c es) (by
    rintro b ⟨x, _, rfl⟩
    exact gapF_nonneg c es x)

theorem eAboveHull_le_gapF (c : PBX) (es : List PBX) (x : ℝ × ℝ)
    (hx : x ∈ phDomain) : eAboveHull c es ≤ gapF c es x :=
  csInf_le (gapF_image_bddBelow c es) ⟨x, hx, rfl⟩

theorem eAboveHull_mono (c c2 : PBX) (es : List PBX)
    (h : ∀ x : ℝ × ℝ, gOf c2 x ≤ gOf c x) :
    eAboveHull c2 es ≤ eAboveHull c es := by
  apply le_csInf (gapF_image_nonempty c es)
  rintro b ⟨x, hx, rfl⟩
  exact (eAboveHull_le_gapF c2 es x hx).trans (gapF_mono c c2 es x (h x))

theorem eAboveHull_const (c : PBX) (es : List PBX) (v : ℝ)
    (h : ∀ x ∈ phDomain, gapF c es x = v) : eAboveHull c es = v := by
  unfold eAboveHull
  rw [Set.image_congr h, Set.Nonempty.image_const ⟨_, phDomain_zero_mem⟩ v,
    csInf_singleton]

theorem gOf_continuous (e : PBX) : Continuous (fun x : ℝ × ℝ => gOf e x) := by
  unfold gOf
  fun_prop

theorem continuous_foldl_min (es : List PBX) :
    ∀ f : ℝ × ℝ → ℝ, Continuous f →
      Continuous (fun x => (es.map (fun e => gOf e x)).foldl min (f x)) := by
  induction es with
  | nil => intro f hf; simpa using hf
  | cons e t ih =>
    intro f hf
    simpa using ih (fun x => min (f x) (gOf e x)) (hf.min (gOf_continuous e))

theorem gapF_continuous (c : PBX) (es : List PBX) :
    Continuous (gapF c es) := by
  unfold gapF minG
  exact (gOf_continuous c).sub (continuous_foldl_min es _ (gOf_continuous c))

theorem eAboveHull_attained (c : PBX) (es : List PBX) :
    ∃ x ∈ phDomain, eAboveHull c es = gapF c es x := by
  obtain ⟨x0, hx0, hmin⟩ := phDomain_compact.exists_isMinOn
    ⟨_, phDomain_zero_mem⟩ (gapF_continuous c es).continuousOn
  refine ⟨x0, hx0, le_antisymm (eAboveHull_le_gapF c es x0 hx0) ?_⟩
  apply le_csInf (gapF_image_nonempty c es)
  rintro b ⟨x, hx, rfl⟩
  exact hmin hx

/-- C7: the instability score (energy above hull) is always non-negative;
it is 0 whenever the compound's free-energy plane lies at or below the
planes of all entries somewhere in the clipped domain; and conversely a
score of 0 means such a stability point exists, so positive scores occur
exactly when the compound is nowhere stable. -/
theorem claim7_zero_iff_stable (c : PBX) (es : List PBX) :
    0 ≤ eAboveHull c es ∧
    ((∃ x ∈ phDomain, ∀ e ∈ c :: es, gOf c x ≤ gOf e x) →
      eAboveHull c es = 0) ∧
    (eAboveHull c es = 0 →
      ∃ x ∈ phDomain, ∀ e ∈ c :: es, gOf c x ≤ gOf e x) := by
  refine ⟨eAboveHull_nonneg c es, ?_, ?_⟩
  · rintro ⟨x, hx, hle⟩
    have hzero : gapF c es x = 0 :=
      gapF_eq_zero_of_le c es x (fun e he => hle e (List.mem_cons_of_mem c he))
    have h1 := eAboveHull_le_gapF c es x hx
    have h2 := eAboveHull_nonneg c es
    rw [hzero] at h1
    linarith
  · intro h0
    obtain ⟨x0, hx0, heq⟩ := eAboveHull_attained c es
    refine ⟨x0, hx0, ?_⟩
    intro e he
    have hzero : gapF c es x0 = 0 := by rw [← heq, h0]
    have hm : minG c es x0 = gOf c x0 := by
      unfold gapF at hzero
      linarith
    calc gOf c x0 = minG c es x0 := hm.symm
      _ ≤ gOf e x0 := minG_le_of_mem c es x0 e he

def pbxC7 : PBX :=
  { name := "Z", entryId := none, comp := [("Z", 1)], energy := 0
    correction := 0, conc := 1, charge := 0, srcElt := none }

theorem claim7_witness : eAboveHull pbxC7 [] = 0 :=
  (claim7_zero_iff_stable pbxC7 []).2.1
    ⟨((0 : ℝ), (0 : ℝ)), phDomain_zero_mem, by
      intro e he
      rcases List.mem_cons.mp he with he | he
      · subst he; exact le_refl _
      · exact absurd he (List.not_mem_nil e)⟩

theorem numAtoms_nonneg (c : Cmps) (h : ∀ p ∈ c, 0 ≤ p.2) :
    0 ≤ Cmps.numAtoms c := by
  apply List.sum_nonneg
  rintro x hx
  rcases List.mem_map.mp hx with ⟨p, hp, rfl⟩
  exact h p hp

theorem gOf_cmpd_le (inp : MPInput) (fe1 fe2 : ℚ) (h : fe2 ≤ fe1) :
    ∀ x : ℝ × ℝ, gOf (cmpdPbx inp fe2) x ≤ gOf (cmpdPbx inp fe1) x := by
  intro x
  unfold gOf cmpdPbx PBX.g0 PBX.nH PBX.nO
  dsimp only
  have hc : ((fe2 + 0 : ℚ) : ℝ) ≤ ((fe1 + 0 : ℚ) : ℝ) := by
    exact_mod_cast (by linarith : fe2 + 0 ≤ fe1 + 0)
  linarith

/-- C2, amended: with non-negative stoichiometric amounts, increasing the
metastability tolerance can only lower the compound's plane, so the
instability score returned by `make_plot` is monotonically non-increasing
in the metastability (the spec asserts the opposite direction). -/
theorem claim2_metastability_monotone (inp : MPInput) (conc m1 m2 : ℚ)
    (s1 s2 : ℝ) (hpos : ∀ p ∈ inp.comp, 0 ≤ p.2) (hm : m1 ≤ m2)
    (h1 : scoreE inp m1 conc = Except.ok s1)
    (h2 : scoreE inp m2 conc = Except.ok s2) : s2 ≤ s1 := by
  unfold scoreE at h1 h2
  cases hd : ionDictE inp with
  | error msg =>
    rw [hd] at h1
    exact absurd h1 (by simp [Bind.bind, Except.bind])
  | ok d =>
    rw [hd] at h1 h2
    simp only [Bind.bind, Except.bind] at h1 h2
    cases hs : endSumE inp with
    | error msg =>
      have hf1 : formEnergyE inp m1 = Except.error msg := by
        unfold formEnergyE
        rw [hs]
        rfl
      rw [hf1] at h1
      exact absurd h1 (by simp)
    | ok s =>
      have hf1 : formEnergyE inp m1 = Except.ok (cmpdEnergy inp m1 - s) := by
        unfold formEnergyE
        rw [hs]
        rfl
      have hf2 : formEnergyE inp m2 = Except.ok (cmpdEnergy inp m2 - s) := by
        unfold formEnergyE
        rw [hs]
        rfl
      rw [hf1] at h1
      rw [hf2] at h2
      cases hi : ionEntriesFromDict inp conc d with
      | error msg =>
        rw [hi] at h1
        exact absurd h1 (by simp)
      | ok l =>
        rw [hi] at h1 h2
        cases h1
        cases h2
        apply eAboveHull_mono
        apply gOf_cmpd_le
        have hn : 0 ≤ Cmps.numAtoms inp.comp := numAtoms_nonneg inp.comp hpos
        have hmul : Cmps.numAtoms inp.comp * m1 ≤ Cmps.numAtoms inp.comp * m2 :=
          mul_le_mul_of_nonneg_left hm hn
        unfold cmpdEnergy
        linarith

def inpC2 : MPInput :=
  { comp := [("X", 1)]
    energy := 7
    expFormEnergy := [("X", [("Xp", 5)])]
    ionCorrection := [("X", 0)]
    endMembers := [("X", 0)]
    ionFromFormula := fun k => if k == "Xp" then ([("X", 1)], 0) else ([], 0) }

def ionC2 : PBX :=
  { name := "Xp", entryId := none, comp := [("X", 1)], energy := 5
    correction := 0, conc := 1, charge := 0, srcElt := some "X" }

theorem gapC2_const (fe : ℚ) (x : ℝ × ℝ) :
    gapF (cmpdPbx inpC2 fe) [ionC2] x = (fe : ℝ) - min (fe : ℝ) 5 := by
  unfold gapF minG gOf cmpdPbx ionC2 inpC2 PBX.g0 PBX.nH PBX.nO
  simp [Cmps.amount, Real.logb_one]

theorem scoreC2_eval (m : ℚ) (fe : ℚ) (hfe : formEnergyE inpC2 m = Except.ok fe) :
    scoreE inpC2 m 1 = Except.ok (eAboveHull (cmpdPbx inpC2 fe) [ionC2]) := by
  have hd : ionDictE inpC2 = Except.ok [("Xp", 5)] := by
    simp [ionDictE, chemsys, inpC2, lookupD, updateD, List.foldlM,
      Bind.bind, Except.bind, Pure.pure, Except.pure]
  have hi : ionEntriesFromDict inpC2 1 [("Xp", 5)] = Except.ok [ionC2] := by
    simp [ionEntriesFromDict, ionRowE, emapM, ionEntryE, elems, chemsys, inpC2,
      ionC2, Cmps.amount, lookupD, Bind.bind, Except.bind, Except.map,
      Pure.pure, Except.pure]
  unfold scoreE
  rw [hd, hfe]
  simp only [Bind.bind, Except.bind]
  rw [hi]
  rfl

theorem scoreC2_at0 : scoreE inpC2 0 1 = Except.ok 2 := by
  have hfe : formEnergyE inpC2 0 = Except.ok 7 := by
    norm_num [formEnergyE, endSumE, cmpdEnergy, inpC2, Cmps.amount,
      Cmps.numAtoms, lookupD, Except.map, List.foldlM, Bind.bind, Except.bind,
      Pure.pure, Except.pure]
  rw [scoreC2_eval 0 7 hfe]
  have : eAboveHull (cmpdPbx inpC2 7) [ionC2] = 2 := by
    apply eAboveHull_const
    intro x _
    rw [gapC2_const]
    norm_num
  rw [this]

theorem scoreC2_at1000 : scoreE inpC2 1000 1 = Except.ok 1 := by
  have hfe : formEnergyE inpC2 1000 = Except.ok 6 := by
    norm_num [formEnergyE, endSumE, cmpdEnergy, inpC2, Cmps.amount,
      Cmps.numAtoms, lookupD, Except.map, List.foldlM, Bind.bind, Except.bind,
      Pure.pure, Except.pure]
  rw [scoreC2_eval 1000 6 hfe]
  have : eAboveHull (cmpdPbx inpC2 6) [ionC2] = 1 := by
    apply eAboveHull_const
    intro x _
    rw [gapC2_const]
    norm_num
  rw [this]

/-- C2, counterexample: at fixed composition, energy and concentration the
instability score drops from 2 to 1 when the metastability is raised from
0 to 1000 meV/atom, refuting the claim that the score is monotonically
non-decreasing in the metastability. -/
theorem claim2_counterexample :
    scoreE inpC2 0 1 = Except.ok 2 ∧ scoreE inpC2 1000 1 = Except.ok 1 ∧
    ¬ ((2 : ℝ) ≤ 1) :=
  ⟨scoreC2_at0, scoreC2_at1000, by norm_num⟩

theorem claim2_witness : (0 : ℚ) ≤ 1000 ∧ (1 : ℝ) ≤ 2 :=
  ⟨by norm_num,
    claim2_metastability_monotone inpC2 1 0 1000 2 1
      (by intro p hp; simp [inpC2] at hp; simp [hp])
      (by norm_num) scoreC2_at0 scoreC2_at1000⟩

def inpC9 : MPInput :=
  { comp := [("Q", 1)]
    energy := 0
    expFormEnergy := []
    ionCorrection := []
    endMembers := [("Q", 0)]
    ionFromFormula := fun _ => ([], 0) }

/-- C9, counterexample: on an invocation that raises `KeyError` (here the
ion table has no record for the system element `Q`, source line 87),
`make_plot` aborts before the save block, so no image file is written —
refuting "exactly one image file per invocation". -/
theorem claim9_counterexample :
    makePlotFilesE inpC9 0 1 = Except.error ("KeyError: " ++ "Q") ∧
    filesWritten (makePlotFilesE inpC9 0 1) = [] := by
  have h : makePlotFilesE inpC9 0 1 = Except.error ("KeyError: " ++ "Q") := by
    unfold makePlotFilesE
    simp [allEntriesE, ionDictE, chemsys, inpC9, lookupD, List.foldlM,
      Bind.bind, Except.bind, Pure.pure, Except.pure, Except.map]
  refine ⟨h, ?_⟩
  rw [h]
  rfl

/-- C9, amended: on every invocation whose entry construction succeeds
(no `KeyError` from the ion, end-member, or correction lookups),
`make_plot` writes exactly one image file, named by the compound's reduced
formula followed by `.pdf` when the metastability is zero and by
`_<metastability>meV.pdf` when it is nonzero; an invocation that raises
writes no file (see the counterexample). -/
theorem claim9_one_file_amended (inp : MPInput) (m conc : ℚ) (l : List PBX)
    (h : allEntriesE inp m conc = Except.ok l) :
    makePlotFilesE inp m conc =
      Except.ok [if m = 0 then reducedFormulaStr inp.comp ++ ".pdf"
                 else reducedFormulaStr inp.comp ++ "_" ++ toString m ++ "meV.pdf"] ∧
    (filesWritten (makePlotFilesE inp m conc)).length = 1 := by
  have hfiles : savedFiles (plotSteps (reducedFormulaStr inp.comp) m) =
      [if m = 0 then reducedFormulaStr inp.comp ++ ".pdf"
       else reducedFormulaStr inp.comp ++ "_" ++ toString m ++ "meV.pdf"] := by
    by_cases hm : m = 0
    · simp [plotSteps, savedFiles, hm]
    · simp [plotSteps, savedFiles, hm]
  have h1 : makePlotFilesE inp m conc =
      Except.ok [if m = 0 then reducedFormulaStr inp.comp ++ ".pdf"
                 else reducedFormulaStr inp.comp ++ "_" ++ toString m ++ "meV.pdf"] := by
    unfold makePlotFilesE
    rw [h]
    simp only [Except.map]
    rw [hfiles]
  refine ⟨h1, ?_⟩
  rw [h1]
  rfl

def inpC9W : MPInput :=
  { comp := [("W", 1)]
    energy := 0
    expFormEnergy := [("W", [])]
    ionCorrection := [("W", 0)]
    endMembers := [("W", 0)]
    ionFromFormula := fun _ => ([], 0) }

theorem claim9_witness :
    allEntriesE inpC9W 0 1 = Except.ok [cmpdPbx inpC9W 0] ∧
    makePlotFilesE inpC9W 0 1 =
      Except.ok [reducedFormulaStr inpC9W.comp ++ ".pdf"] := by
  have hd : ionDictE inpC9W = Except.ok [] := by
    simp [ionDictE, chemsys, inpC9W, lookupD, List.foldlM, Bind.bind,
      Except.bind, Pure.pure, Except.pure]
  have hs : endSumE inpC9W = Except.ok 0 := by
    simp [endSumE, inpC9W, lookupD, Cmps.amount, List.foldlM, Bind.bind,
      Except.bind, Pure.pure, Except.pure]
  have hf : formEnergyE inpC9W 0 = Except.ok 0 := by
    unfold formEnergyE
    rw [hs]
    norm_num [Except.map, cmpdEnergy, inpC9W, Cmps.numAtoms]
  have hi : ionEntriesFromDict inpC9W 1 [] = Except.ok [] := by
    simp [ionEntriesFromDict, ionRowE, emapM, elems, chemsys, inpC9W,
      Except.map, Pure.pure, Except.pure, Bind.bind, Except.bind]
  have h : allEntriesE inpC9W 0 1 = Except.ok [cmpdPbx inpC9W 0] := by
    unfold allEntriesE
    rw [hd, hf]
    simp [Bind.bind, Except.bind, Pure.pure, Except.pure, hi]
  refine ⟨h, ?_⟩
  have h2 := (claim9_one_file_amended inpC9W 0 1 [cmpdPbx inpC9W 0] h).1
  simpa using h2
